import Mathlib

/-!
Verification of the `goto` alias store and fuzzy resolver.

The Rust sources are shallowly embedded:
* Rust `String` is Lean `String`; Rust `str::len()` is the UTF-8 byte
  length, modelled as `utf8Len`; Rust `to_lowercase` maps each character
  to its Unicode lowercase mapping, which may be several characters and
  may change the byte length.  `rustCharLower` embeds that mapping on
  the ASCII range, plus the one-to-many mapping of U+0130 (LATIN CAPITAL
  LETTER I WITH DOT ABOVE, whose lowercase is U+0069 U+0307) as a
  representative of the length-changing cases; remaining characters are
  left unchanged.  Statements that depend on byte length equalling
  character count are restricted to ASCII inputs (`allAscii`), where the
  model and the program agree exactly.
* `f64` similarity scores are modelled exactly as rationals (`ℚ`);
  the `as i32` truncation of a non-negative score is `Rat.floor`.
* `chrono` timestamps are modelled as an abstract clock value `Nat`.
* The `HashMap<String, Alias>` keyed by `alias.name` is modelled as a
  list of records looked up by name, with insertion replacing the
  record of the same name (map semantics); iteration order is a model
  artifact that no verified statement depends on.
* Filesystem and terminal effects (`Path::exists`, `is_dir`, the
  interactive confirmation) are passed in as explicit parameters.
-/

namespace Goto

attribute [local semireducible] String.ltb List.merge List.mergeSort Rat.sub Rat.mul Rat.inv Rat.add

/-- The UTF-8 byte count of one character (what one character
contributes to Rust `str::len()`). -/
def utf8Size (c : Char) : Nat :=
  if c.toNat < 128 then 1
  else if c.toNat < 2048 then 2
  else if c.toNat < 65536 then 3
  else 4

/-- Rust `str::len()`: the UTF-8 byte length of the string. -/
def utf8Len (s : String) : Nat := (s.data.map utf8Size).sum

/-- Rust `char::to_lowercase()`: the Unicode lowercase mapping of one
character, a sequence of characters.  Modelled exactly on the ASCII
range and on U+0130 (whose lowercase is the two characters U+0069
U+0307, one byte longer in UTF-8); other characters are left unchanged
(a partial extract of the Unicode table). -/
def rustCharLower (c : Char) : List Char :=
  if c.toNat = 304 then [Char.ofNat 105, Char.ofNat 775]
  else [Char.toLower c]

/-- Character data of Rust `str::to_lowercase`: concatenation of the
per-character lowercase mappings. -/
def strLowerData : List Char → List Char
  | [] => []
  | c :: cs => rustCharLower c ++ strLowerData cs

/-- Rust `str::to_lowercase`. -/
def strLower (s : String) : String := ⟨strLowerData s.data⟩

/-- Every character of the string is in the ASCII range, where Rust's
byte length equals the character count and `to_lowercase` is the
per-character ASCII mapping. -/
def allAscii (s : String) : Bool := s.data.all (fun c => c.toNat < 128)

/-! ### fuzzy.rs -/

/-- Inner loop of `levenshtein_distance` (fuzzy.rs lines 33-39): one row
update of the two-row dynamic program walking along `s2`.  `diag` is
`prev[j-1]`, `left` is `curr[j-1]`, and `up :: rest` holds `prev[j]`
and the remaining entries of the previous row. -/
def levRow (c : Char) : List Char → Nat → Nat → List Nat → List Nat
  | [], _, _, _ => []
  | _ :: _, _, _, [] => []
  | y :: ys, diag, left, up :: rest =>
    let cost : Nat := if c = y then 0 else 1
    let v := Nat.min (Nat.min (up + 1) (left + 1)) (diag + cost)
    v :: levRow c ys up v rest

/-- Outer loop of `levenshtein_distance` (fuzzy.rs lines 31-41): fold the
row update over the characters of `s1`, starting from row `i`. -/
def levRows (s2 : List Char) : List Char → List Nat → Nat → List Nat
  | [], prev, _ => prev
  | c :: cs, prev, i =>
    levRows s2 cs (i :: levRow c s2 (prev.headD 0) i prev.tail) (i + 1)

/-- The dynamic program of `levenshtein_distance`: final answer is the
last entry of the last row (`prev[s2_chars.len()]`). -/
def levDP (s1 s2 : List Char) : Nat :=
  (levRows s2 s1 (List.range (s2.length + 1)) 1).getLastD 0

/-- `levenshtein_distance` (fuzzy.rs lines 11-44): lowercases both
strings, short-circuits on equality — and on empty strings, returning
the BYTE length (`s.len()`) of the lowercased other string — then runs
the two-row dynamic program over the characters. -/
def levenshtein_distance (s1 s2 : String) : Nat :=
  let l1 := (strLower s1).data
  let l2 := (strLower s2).data
  if l1 = l2 then 0
  else if l1 = [] then utf8Len (strLower s2)
  else if l2 = [] then utf8Len (strLower s1)
  else levDP l1 l2

/-- `similarity` (fuzzy.rs lines 48-67): exact or case-insensitive
equality short-circuits to 1; otherwise `1 - distance / max_len`, where
`max_len` is the larger BYTE length (`s.len()`) of the two original
strings. -/
def similarity (s1 s2 : String) : ℚ :=
  if s1 = s2 then 1
  else if strLower s1 = strLower s2 then 1
  else
    let maxLen := max (utf8Len s1) (utf8Len s2)
    if maxLen = 0 then 1
    else 1 - (levenshtein_distance s1 s2 : ℚ) / (maxLen : ℚ)

/-- `is_substring` (fuzzy.rs lines 70-72): case-insensitive substring
test, i.e. the lowercased query is a contiguous infix of the lowercased
target. -/
def is_substring (query target : String) : Bool :=
  decide ((strLower query).data <:+: (strLower target).data)

/-- The comparator of `find_matches` (fuzzy.rs lines 152-154):
`b.1.cmp(&a.1).then_with(|| a.0.cmp(b.0))` is not-greater, i.e. score
descending with ties broken by name ascending. -/
def matchLE (a b : String × ℤ) : Bool :=
  decide (b.2 < a.2 ∨ (b.2 = a.2 ∧ a.1 ≤ b.1))

/-- `find_matches` (fuzzy.rs lines 124-157): empty query returns every
candidate with score 0; otherwise candidates are scored (with the
substring boost), kept when the boosted score is at least 0.3 or the
query is a substring, converted to a 0-1000 score, and sorted. -/
def find_matches (query : String) (candidates : List String) : List (String × ℤ) :=
  if query = "" then candidates.map (fun c => (c, 0))
  else
    let scored := candidates.filterMap (fun c =>
      let sim := similarity query c
      let boosted :=
        if is_substring query c then
          max sim (1 / 2 + ((utf8Len query : ℚ) / (utf8Len c : ℚ)) * (1 / 2))
        else sim
      if boosted ≥ 3 / 10 ∨ is_substring query c then
        some (c, Rat.floor (boosted * 1000))
      else none)
    scored.mergeSort matchLE

/-! ### alias.rs -/

/-- The space character (used when splitting legacy lines). -/
def spaceChar : Char := Char.ofNat 32

/-- `Alias` (alias.rs lines 73-91).  Timestamps are modelled as abstract
clock values of type `Nat`. -/
structure Alias where
  name : String
  path : String
  tags : List String
  use_count : Nat
  last_used : Option Nat
  created_at : Nat
deriving DecidableEq, Repr

/-- Errors of alias.rs lines 16-32 (reason strings omitted: no verified
statement inspects them). -/
inductive AliasError
  | invalidAlias (name : String)
  | notFound (name : String)
  | alreadyExists (name : String)
  | directoryNotFound (path : String)
  | invalidTag (tag : String)
deriving DecidableEq, Repr

/-- `VALID_ALIAS_PATTERN` (alias.rs line 10): regex
`^[a-zA-Z0-9][a-zA-Z0-9_.-]*$`, together with the emptiness check of
`validate_alias`; `Char.isAlphanum` is the ASCII class `[a-zA-Z0-9]`. -/
def validAliasName (name : String) : Bool :=
  match name.data with
  | [] => false
  | c :: rest =>
    c.isAlphanum &&
      rest.all (fun ch => ch.isAlphanum || ch = Char.ofNat 95 || ch = Char.ofNat 46 || ch = Char.ofNat 45)

/-- Rust `Vec::sort` on strings: stable ascending sort by the
lexicographic order (Rust byte order equals code-point order, which is
the `String` linear order). -/
def sortStr (l : List String) : List String := l.mergeSort (fun a b => decide (a ≤ b))

/-- `Alias::record_use` (alias.rs lines 122-125). -/
def Alias.record_use (a : Alias) (now : Nat) : Alias :=
  { a with use_count := a.use_count + 1, last_used := some now }

/-- `Alias::add_tag` (alias.rs lines 128-134): push and re-sort unless
the tag is already present. -/
def Alias.add_tag (a : Alias) (tag : String) : Alias :=
  if a.tags.contains tag then a
  else { a with tags := sortStr (a.tags ++ [tag]) }

/-- `Alias::remove_tag` (alias.rs lines 137-144): remove the first
occurrence and report whether one was removed. -/
def Alias.remove_tag (a : Alias) (tag : String) : Bool × Alias :=
  if a.tags.contains tag then (true, { a with tags := a.tags.erase tag })
  else (false, a)

/-- `Alias::has_tag` (alias.rs lines 147-149). -/
def Alias.has_tag (a : Alias) (tag : String) : Bool := a.tags.contains tag

/-! ### database.rs

The `HashMap<String, Alias>` is modelled as a list of records; every
mutation below is keyed by `Alias.name`, mirroring how the Rust code
always uses `alias.name.clone()` as the key. -/

/-- `HashMap::insert` keyed by name: replace the record with the same
name, or append the new record. -/
def insertList : List Alias → Alias → List Alias
  | [], a => [a]
  | b :: bs, a => if b.name = a.name then a :: bs else b :: insertList bs a

/-- `HashMap::remove` keyed by name: drop the first record with the
name, returning it. -/
def removeFirst : List Alias → String → Option Alias × List Alias
  | [], _ => (none, [])
  | b :: bs, n =>
    if b.name = n then (some b, bs)
    else
      let p := removeFirst bs n
      (p.1, b :: p.2)

/-- `HashMap::get_mut` followed by an in-place update: apply `f` to the
record with the name, `none` when absent. -/
def updateFirst : List Alias → String → (Alias → Alias) → Option (List Alias)
  | [], _, _ => none
  | b :: bs, n, f =>
    if b.name = n then some (f b :: bs)
    else (updateFirst bs n f).map (fun l => b :: l)

/-- `Database` (database.rs lines 42-52), restricted to the in-memory
state: the record map and the dirty flag (the two file paths only feed
the I/O layer). -/
structure Database where
  aliases : List Alias
  dirty : Bool
deriving DecidableEq, Repr

/-- A freshly loaded empty database (database.rs lines 64-77). -/
def Database.empty : Database := ⟨[], false⟩

/-- `Database::get` (database.rs lines 170-173). -/
def Database.find? (d : Database) (name : String) : Option Alias :=
  d.aliases.find? (fun a => a.name = name)

/-- `Database::contains` (database.rs lines 213-216). -/
def Database.containsB (d : Database) (name : String) : Bool :=
  d.aliases.any (fun a => a.name = name)

/-- `Database::list_names` / `names` (database.rs lines 223-231). -/
def Database.names (d : Database) : List String := d.aliases.map Alias.name

/-- `Database::insert` (database.rs lines 181-185): unconditional
upsert, marks dirty. -/
def Database.insert (d : Database) (a : Alias) : Database :=
  { aliases := insertList d.aliases a, dirty := true }

/-- `Database::save` (database.rs lines 147-168) restricted to the
in-memory state: clears the dirty flag (the TOML write is I/O). -/
def Database.save (d : Database) : Database := { d with dirty := false }

/-- `Database::add` (database.rs lines 188-194): fails with
AlreadyExists when the name is taken, otherwise inserts.  The returned
database is the post-state of the call. -/
def Database.add (d : Database) (a : Alias) : Except AliasError Unit × Database :=
  if d.containsB a.name then (Except.error (AliasError.alreadyExists a.name), d)
  else (Except.ok (), d.insert a)

/-- `Database::add_with_tags` (database.rs lines 197-205): fails with
AlreadyExists when the name is taken; otherwise sorts the supplied tags,
stores them on the record and inserts it. -/
def Database.add_with_tags (d : Database) (a : Alias) (tags : List String) :
    Except AliasError Unit × Database :=
  if d.containsB a.name then (Except.error (AliasError.alreadyExists a.name), d)
  else (Except.ok (), d.insert { a with tags := sortStr tags })

/-- `Database::record_usage` (database.rs lines 244-252). -/
def Database.record_usage (d : Database) (name : String) (now : Nat) :
    Except AliasError Unit × Database :=
  match updateFirst d.aliases name (fun a => a.record_use now) with
  | some l => (Except.ok (), { aliases := l, dirty := true })
  | none => (Except.error (AliasError.notFound name), d)

/-- `Database::rename_alias` (database.rs lines 255-272): AlreadyExists
when the new name is taken, NotFound when the old name is absent;
otherwise re-key the record under the new name. -/
def Database.rename_alias (d : Database) (old_name new_name : String) :
    Except AliasError Unit × Database :=
  if d.containsB new_name then (Except.error (AliasError.alreadyExists new_name), d)
  else
    let p := removeFirst d.aliases old_name
    match p.1 with
    | none => (Except.error (AliasError.notFound old_name), d)
    | some a =>
      (Except.ok (), { aliases := insertList p.2 { a with name := new_name }, dirty := true })

/-- `Database::add_tag` (database.rs lines 275-283). -/
def Database.add_tag (d : Database) (aliasName tag : String) :
    Except AliasError Unit × Database :=
  match updateFirst d.aliases aliasName (fun a => a.add_tag tag) with
  | some l => (Except.ok (), { aliases := l, dirty := true })
  | none => (Except.error (AliasError.notFound aliasName), d)

/-- `Database::remove_tag` (database.rs lines 286-294); the boolean
returned by `Alias::remove_tag` is discarded. -/
def Database.remove_tag (d : Database) (aliasName tag : String) :
    Except AliasError Unit × Database :=
  match updateFirst d.aliases aliasName (fun a => (a.remove_tag tag).2) with
  | some l => (Except.ok (), { aliases := l, dirty := true })
  | none => (Except.error (AliasError.notFound aliasName), d)

/-- `Database::set_tags` (database.rs lines 297-306): replace the tag
list with the supplied one and sort it. -/
def Database.set_tags (d : Database) (aliasName : String) (tags : List String) :
    Except AliasError Unit × Database :=
  match updateFirst d.aliases aliasName (fun a => { a with tags := sortStr tags }) with
  | some l => (Except.ok (), { aliases := l, dirty := true })
  | none => (Except.error (AliasError.notFound aliasName), d)

/-! ### Migration (database.rs lines 111-145) -/

/-- The `#` character (legacy comment marker). -/
def hashChar : Char := Char.ofNat 35

/-- Rust `str::trim`, modelled as dropping whitespace characters from
both ends of the character sequence. -/
def strTrim (s : String) : String :=
  ⟨(((s.data.dropWhile Char.isWhitespace).reverse.dropWhile Char.isWhitespace).reverse)⟩

/-- Rust `str::lines`, modelled as splitting the character sequence on
the newline character (a trailing `\r` is later consumed by `strTrim`,
just as the source's `trim` consumes it). -/
def splitOnChar (sep : Char) : List Char → List (List Char)
  | [] => [[]]
  | c :: cs =>
    match splitOnChar sep cs with
    | [] => [[c]]
    | h :: t => if c = sep then [] :: h :: t else (c :: h) :: t

/-- The lines of a legacy file content. -/
def linesOf (content : String) : List String :=
  (splitOnChar (Char.ofNat 10) content.data).map (fun l => ⟨l⟩)

/-- One line of `migrate_from_text_format`: trim, skip blanks and `#`
comments, then `splitn(2, ' ')` — two parts exactly when the trimmed
line contains a space; the name is everything before the first space,
the path everything after it. -/
def parseLine (line : String) : Option (String × String) :=
  match (strTrim line).data with
  | [] => none
  | c :: cs =>
    if c = hashChar then none
    else if (c :: cs).contains spaceChar then
      some (⟨(c :: cs).takeWhile (fun ch => ch ≠ spaceChar)⟩,
            ⟨((c :: cs).dropWhile (fun ch => ch ≠ spaceChar)).tail⟩)
    else none

/-- The record built for a migrated line (database.rs lines 124-131). -/
def migratedAlias (now : Nat) (np : String × String) : Alias :=
  ⟨np.1, np.2, [], 0, none, now⟩

/-- `migrate_from_text_format` (database.rs lines 111-145) restricted to
the in-memory state: the store starts empty, each parsed line is
inserted into the map, and the final save clears the dirty flag.  Rust
`str::lines` is modelled as splitting on a newline; the trailing `\r`
of a Windows line is consumed by `trim`, as in the source. -/
def migrateLines (lines : List String) (now : Nat) : Database :=
  { aliases :=
      lines.foldl (fun acc line =>
        match parseLine line with
        | none => acc
        | some np => insertList acc (migratedAlias now np)) [],
    dirty := false }

/-- `migrate_from_text_format` on a whole legacy file content. -/
def migrate_from_text_format (content : String) (now : Nat) : Database :=
  migrateLines (linesOf content) now

/-! ### commands/import_export.rs -/

/-- `ImportStrategy` (import_export.rs lines 32-38). -/
inductive ImportStrategy
  | skip
  | overwrite
  | rename
deriving DecidableEq, Repr

/-- `ImportResult` (import_export.rs lines 23-29). -/
structure ImportResult where
  imported : Nat
  skipped : Nat
  renamed : Nat
  warnings : List String
deriving DecidableEq, Repr

/-- The candidate name `format!("{}_{}", base_name, suffix)` of
`find_unique_name` (import_export.rs line 143). -/
def suffixName (base : String) (k : Nat) : String := base ++ "_" ++ toString k

/-- The search loop of `find_unique_name` (import_export.rs lines
140-149).  The Rust loop always terminates because the finitely many
existing names cannot contain every candidate; the model carries
explicit fuel, returning the current candidate if fuel runs out. -/
def findUniqueAux (base : String) (existing : List String) : Nat → Nat → String
  | 0, k => suffixName base k
  | fuel + 1, k =>
    if existing.contains (suffixName base k) then findUniqueAux base existing fuel (k + 1)
    else suffixName base k

/-- `find_unique_name` (import_export.rs lines 140-149): first unused
name of the form `base_2`, `base_3`, … scanning upward from 2. -/
def find_unique_name (base : String) (existing : List String) : String :=
  findUniqueAux base existing (existing.length + 1) 2

/-- `export_toml` (database.rs lines 347-352) up to TOML encoding: the
serialized payload is the array of records sorted by name.  The TOML
encoder and parser of the external `toml` crate are modelled as a
faithful transport of this array. -/
def export_records (d : Database) : List Alias :=
  d.aliases.mergeSort (fun a b => decide (a.name ≤ b.name))

/-- The per-record loop of `import_from_content` (import_export.rs lines
86-134): validate the name (warn and skip when invalid), warn when the
path does not exist, then resolve name conflicts against
`existing_names` by the chosen strategy.  `pathExists` stands for
`Path::exists`. -/
def importLoop (pathExists : String → Bool) (strategy : ImportStrategy) :
    List Alias → List String → ImportResult → Database → ImportResult × Database
  | [], _, res, db => (res, db)
  | a :: rest, existing, res, db =>
    if validAliasName a.name = false then
      importLoop pathExists strategy rest existing
        { res with
          skipped := res.skipped + 1,
          warnings := res.warnings ++ ["skipping invalid alias name: " ++ a.name] } db
    else
      let res1 :=
        if pathExists a.path then res
        else { res with
               warnings := res.warnings ++ ["warning: path does not exist for alias: " ++ a.name] }
      if existing.contains a.name then
        match strategy with
        | ImportStrategy.skip =>
          importLoop pathExists strategy rest existing
            { res1 with skipped := res1.skipped + 1 } db
        | ImportStrategy.overwrite =>
          importLoop pathExists strategy rest existing
            { res1 with imported := res1.imported + 1 } (db.insert a)
        | ImportStrategy.rename =>
          let newName := find_unique_name a.name existing
          importLoop pathExists strategy rest (newName :: existing)
            { res1 with renamed := res1.renamed + 1 } (db.insert { a with name := newName })
      else
        importLoop pathExists strategy rest (a.name :: existing)
          { res1 with imported := res1.imported + 1 } (db.insert a)

/-- `import_from_content` (import_export.rs lines 67-137) after TOML
parsing: `importAliases` is the parsed alias array; an empty array is a
hard error, otherwise the records are merged one by one. -/
def import_from_content (pathExists : String → Bool) (d : Database)
    (importAliases : List Alias) (strategy : ImportStrategy) :
    Except String (ImportResult × Database) :=
  if importAliases.isEmpty then Except.error "no aliases found in import file"
  else Except.ok (importLoop pathExists strategy importAliases d.names ⟨0, 0, 0, []⟩ d)

/-! ### commands/navigate.rs -/

/-- The failure outcomes of `navigate` (navigate.rs lines 14-80):
`notFound` is the "alias not found" message, `cancelled` the
"Navigation cancelled" message, and `aliasError` a propagated store
error. -/
inductive NavError
  | notFound (query : String)
  | directoryNotFound (path : String)
  | notADirectory (path : String)
  | cancelled
  | aliasError (e : AliasError)
deriving DecidableEq, Repr

/-- `navigate` (navigate.rs lines 14-80).  `pathExists` and `isDir`
stand for the filesystem checks; `confirmAnswer` is the value returned
by `confirm(_, false)` — `false` both on explicit decline and in a
non-interactive context (lib.rs lines 38-58).  The `ok` payload is the
path printed for the shell, `none` in the degenerate branch where the
suggested alias vanished. -/
def navigate (d : Database) (query : String) (pathExists isDir : String → Bool)
    (confirmAnswer : Bool) (now : Nat) : Except NavError (Option String) × Database :=
  match d.find? query with
  | some entry =>
    if pathExists entry.path = false then
      (Except.error (NavError.directoryNotFound entry.path), d)
    else if isDir entry.path = false then
      (Except.error (NavError.notADirectory entry.path), d)
    else
      match d.record_usage query now with
      | (Except.error e, d1) => (Except.error (NavError.aliasError e), d1)
      | (Except.ok _, d1) => (Except.ok (some entry.path), d1.save)
  | none =>
    let ms := (find_matches query d.names).take 5
    match ms with
    | [] => (Except.error (NavError.notFound query), d)
    | best :: _ =>
      if best.2 ≥ 700 then
        if confirmAnswer then
          match d.find? best.1 with
          | some entry =>
            if pathExists entry.path = false then
              (Except.error (NavError.directoryNotFound entry.path), d)
            else if isDir entry.path = false then
              (Except.error (NavError.notADirectory entry.path), d)
            else
              match d.record_usage best.1 now with
              | (Except.error e, d1) => (Except.error (NavError.aliasError e), d1)
              | (Except.ok _, d1) => (Except.ok (some entry.path), d1.save)
          | none => (Except.ok none, d)
        else (Except.error NavError.cancelled, d)
      else (Except.error (NavError.notFound query), d)

/-! ### Bounds for the Levenshtein dynamic program -/

lemma levRow_length (c : Char) (ys : List Char) :
    ∀ (diag left : Nat) (ps : List Nat), ps.length = ys.length →
      (levRow c ys diag left ps).length = ys.length := by
  induction ys with
  | nil => intro diag left ps h; rfl
  | cons y ys ih =>
    intro diag left ps h
    cases ps with
    | nil => simp at h
    | cons up rest =>
      simp only [levRow, List.length_cons]
      rw [ih up _ rest (by simpa using h)]

lemma levRow_getD (c : Char) (ys : List Char) :
    ∀ (diag left : Nat) (ps : List Nat), ps.length = ys.length →
      ∀ j, j < ys.length →
        (levRow c ys diag left ps).getD j 0 ≤ (diag :: ps).getD j 0 + 1 := by
  induction ys with
  | nil => intro _ _ _ _ j hj; simp at hj
  | cons y ys ih =>
    intro diag left ps h j hj
    cases ps with
    | nil => simp at h
    | cons up rest =>
      cases j with
      | zero =>
        simp only [levRow, List.getD_cons_zero]
        have hcost : (if c = y then 0 else 1) ≤ 1 := by split <;> omega
        calc Nat.min (Nat.min (up + 1) (left + 1)) (diag + if c = y then 0 else 1)
            ≤ diag + (if c = y then 0 else 1) := Nat.min_le_right _ _
          _ ≤ diag + 1 := by omega
      | succ j =>
        simp only [levRow, List.getD_cons_succ]
        exact ih up _ rest (by simpa using h) j (by simpa using hj)

lemma headD_cons_tail (l : List Nat) (h : l ≠ []) : l.headD 0 :: l.tail = l := by
  cases l with
  | nil => exact absurd rfl h
  | cons a t => rfl

lemma levRows_spec (s2 : List Char) (cs : List Char) :
    ∀ (prev : List Nat) (i0 : Nat),
      prev.length = s2.length + 1 →
      (∀ j, j ≤ s2.length → prev.getD j 0 ≤ max i0 j) →
      (levRows s2 cs prev (i0 + 1)).length = s2.length + 1 ∧
        ∀ j, j ≤ s2.length →
          (levRows s2 cs prev (i0 + 1)).getD j 0 ≤ max (i0 + cs.length) j := by
  induction cs with
  | nil =>
    intro prev i0 hlen hbound
    exact ⟨hlen, by simpa using hbound⟩
  | cons c cs ih =>
    intro prev i0 hlen hbound
    have hne : prev ≠ [] := by
      intro h
      rw [h] at hlen
      simp at hlen
    have htail : prev.tail.length = s2.length := by
      cases prev with
      | nil => exact absurd rfl hne
      | cons a t => simpa using hlen
    have hcl : ((i0 + 1) :: levRow c s2 (prev.headD 0) (i0 + 1) prev.tail).length
        = s2.length + 1 := by
      simp [levRow_length c s2 _ _ _ htail]
    have hcb : ∀ j, j ≤ s2.length →
        ((i0 + 1) :: levRow c s2 (prev.headD 0) (i0 + 1) prev.tail).getD j 0
          ≤ max (i0 + 1) j := by
      intro j hj
      cases j with
      | zero => simp
      | succ j =>
        simp only [List.getD_cons_succ]
        have h1 := levRow_getD c s2 (prev.headD 0) (i0 + 1) prev.tail htail j
          (by omega)
        rw [headD_cons_tail prev hne] at h1
        have h2 := hbound j (by omega)
        omega
    have hmain := ih ((i0 + 1) :: levRow c s2 (prev.headD 0) (i0 + 1) prev.tail)
      (i0 + 1) hcl hcb
    constructor
    · simpa only [levRows] using hmain.1
    · intro j hj
      have := hmain.2 j hj
      simp only [levRows, List.length_cons]
      omega

lemma getLastD_cons_getD (l : List Nat) :
    ∀ (a d : Nat), (a :: l).getLastD d = (a :: l).getD l.length 0 := by
  induction l with
  | nil => intro a d; rfl
  | cons b u ih =>
    intro a d
    calc (a :: b :: u).getLastD d = (b :: u).getLastD a := rfl
      _ = (b :: u).getD u.length 0 := ih b a
      _ = (a :: b :: u).getD (b :: u).length 0 := by
        rw [List.length_cons, List.getD_cons_succ]

lemma levDP_le (s1 s2 : List Char) : levDP s1 s2 ≤ max s1.length s2.length := by
  have hbase : ∀ j, j ≤ s2.length → (List.range (s2.length + 1)).getD j 0 ≤ max 0 j := by
    intro j hj
    have hlt : j < (List.range (s2.length + 1)).length := by simpa using Nat.lt_succ_of_le hj
    rw [List.getD_eq_getElem _ _ hlt]
    simp
  have hspec := levRows_spec s2 s1 (List.range (s2.length + 1)) 0 (by simp) hbase
  have hne : levRows s2 s1 (List.range (s2.length + 1)) 1 ≠ [] := by
    intro h
    have := hspec.1
    rw [h] at this
    simp at this
  obtain ⟨a, t, heq⟩ := List.exists_cons_of_ne_nil hne
  have htl : t.length = s2.length := by
    have := hspec.1
    rw [heq] at this
    simpa using this
  unfold levDP
  rw [heq, getLastD_cons_getD, htl, ← heq]
  have := hspec.2 s2.length (le_refl _)
  simpa using this

lemma toNat_ofNatAux (n : Nat) (h : n.isValidChar) : (Char.ofNatAux n h).toNat = n := rfl

lemma toLower_toNat_lt (c : Char) (h : c.toNat < 128) : (Char.toLower c).toNat < 128 := by
  have he : Char.toLower c =
      if c.toNat ≥ 65 ∧ c.toNat ≤ 90 then Char.ofNat (c.toNat + 32) else c := rfl
  rw [he]
  split
  · rename_i hb
    have hv : Nat.isValidChar (c.toNat + 32) := Or.inl (by omega)
    unfold Char.ofNat
    rw [dif_pos hv, toNat_ofNatAux]
    omega
  · exact h

lemma rustCharLower_ascii (c : Char) (h : c.toNat < 128) :
    rustCharLower c = [Char.toLower c] := by
  unfold rustCharLower
  rw [if_neg (by omega)]

lemma strLowerData_ascii (l : List Char) (h : ∀ c ∈ l, c.toNat < 128) :
    strLowerData l = l.map Char.toLower := by
  induction l with
  | nil => rfl
  | cons c cs ih =>
    simp only [strLowerData, List.map_cons]
    rw [rustCharLower_ascii c (h c (List.mem_cons_self c cs)),
      ih (fun x hx => h x (List.mem_cons_of_mem c hx))]
    rfl

lemma allAscii_iff (s : String) : allAscii s = true ↔ ∀ c ∈ s.data, c.toNat < 128 := by
  simp [allAscii]

lemma sum_utf8Size_ascii (l : List Char) (h : ∀ c ∈ l, c.toNat < 128) :
    (l.map utf8Size).sum = l.length := by
  induction l with
  | nil => rfl
  | cons c cs ih =>
    simp only [List.map_cons, List.sum_cons, List.length_cons]
    rw [ih (fun x hx => h x (List.mem_cons_of_mem c hx))]
    have hc : utf8Size c = 1 := by
      unfold utf8Size
      rw [if_pos (h c (List.mem_cons_self c cs))]
    omega

lemma utf8Len_eq (s : String) (h : allAscii s = true) : utf8Len s = s.data.length := by
  unfold utf8Len
  exact sum_utf8Size_ascii s.data ((allAscii_iff s).mp h)

lemma strLower_ascii (s : String) (h : allAscii s = true) :
    (strLower s).data.length = s.data.length ∧ ∀ c ∈ (strLower s).data, c.toNat < 128 := by
  have hd : (strLower s).data = s.data.map Char.toLower :=
    strLowerData_ascii s.data ((allAscii_iff s).mp h)
  rw [hd]
  constructor
  · exact List.length_map _ _
  · intro c hc
    obtain ⟨x, hx, rfl⟩ := List.mem_map.mp hc
    exact toLower_toNat_lt x ((allAscii_iff s).mp h x hx)

lemma utf8Len_strLower_ascii (s : String) (h : allAscii s = true) :
    utf8Len (strLower s) = s.data.length := by
  have h2 := strLower_ascii s h
  unfold utf8Len
  rw [sum_utf8Size_ascii _ h2.2]
  exact h2.1

lemma levenshtein_le_ascii (s1 s2 : String)
    (h1 : allAscii s1 = true) (h2 : allAscii s2 = true) :
    levenshtein_distance s1 s2 ≤ max (utf8Len s1) (utf8Len s2) := by
  have e1 := utf8Len_eq s1 h1
  have e2 := utf8Len_eq s2 h2
  have f1 := (strLower_ascii s1 h1).1
  have f2 := (strLower_ascii s2 h2).1
  have g1 := utf8Len_strLower_ascii s1 h1
  have g2 := utf8Len_strLower_ascii s2 h2
  simp only [levenshtein_distance]
  split_ifs with ha hb hc
  · omega
  · omega
  · omega
  · have := levDP_le (strLower s1).data (strLower s2).data
    omega

lemma similarity_le_one (a b : String) : similarity a b ≤ 1 := by
  simp only [similarity]
  split_ifs with h1 h2 h3
  · norm_num
  · norm_num
  · norm_num
  · set m : ℕ := max (utf8Len a) (utf8Len b) with hm
    set dst : ℕ := levenshtein_distance a b with hdst
    have hmpos : (0 : ℚ) < (m : ℚ) := Nat.cast_pos.mpr (Nat.pos_of_ne_zero h3)
    have hd0 : (0 : ℚ) ≤ (dst : ℚ) := Nat.cast_nonneg _
    have hdiv0 : (0 : ℚ) ≤ (dst : ℚ) / (m : ℚ) := div_nonneg hd0 (le_of_lt hmpos)
    linarith

lemma similarity_mem_unit_ascii (a b : String)
    (ha : allAscii a = true) (hb : allAscii b = true) :
    0 ≤ similarity a b ∧ similarity a b ≤ 1 := by
  refine ⟨?_, similarity_le_one a b⟩
  simp only [similarity]
  split_ifs with h1 h2 h3
  · norm_num
  · norm_num
  · norm_num
  · set m : ℕ := max (utf8Len a) (utf8Len b) with hm
    set dst : ℕ := levenshtein_distance a b with hdst
    have hmpos : (0 : ℚ) < (m : ℚ) := Nat.cast_pos.mpr (Nat.pos_of_ne_zero h3)
    have hdle : (dst : ℚ) ≤ (m : ℚ) := Nat.cast_le.mpr (levenshtein_le_ascii a b ha hb)
    have hdiv1 : (dst : ℚ) / (m : ℚ) ≤ 1 := (div_le_one hmpos).mpr hdle
    linarith

lemma similarity_eq_one_of_lower (a b : String) (h : strLower a = strLower b) :
    similarity a b = 1 := by
  simp only [similarity]
  split_ifs with h1 <;> rfl

/-- The one-character string holding U+0130 LATIN CAPITAL LETTER I WITH
DOT ABOVE: 2 UTF-8 bytes, whose lowercase `i` + U+0307 is 3 bytes. -/
def capitalIWithDot : String := ⟨[Char.ofNat 304]⟩

/-- C1 counterexample.  `similarity "" "İ"` is `1 - 3/2 = -1/2`: the
distance short-circuit returns the byte length of the lowercased
`"İ"` (3 bytes) while `max_len` is the byte length of the original
(2 bytes), so the result escapes the claimed interval `[0, 1]`. -/
theorem C1_counterexample :
    similarity "" capitalIWithDot = -(1 / 2) ∧ similarity "" capitalIWithDot < 0 := by
  constructor <;> decide

/-- C1 (amended).  `similarity` is at most 1 on all strings and equals
exactly 1 whenever the two strings agree after lowercasing; on ASCII
strings — where the byte length equals the character count and
lowercasing preserves it — it also stays at least 0, so there it lies
in the closed interval `[0, 1]`.  (On non-ASCII strings the lower
bound can fail, because lowercasing can grow the UTF-8 byte length
past `max_len`.) -/
theorem C1_similarity_range_ascii_amended (a b : String)
    (ha : allAscii a = true) (hb : allAscii b = true) :
    (0 ≤ similarity a b ∧ similarity a b ≤ 1) ∧
      (strLower a = strLower b → similarity a b = 1) :=
  ⟨similarity_mem_unit_ascii a b ha hb, similarity_eq_one_of_lower a b⟩

/-- Witness for C1 at a concrete input: `"Ab"` and `"aB"` are ASCII and
agree after lowercasing, so their similarity is bounded and exactly 1. -/
theorem C1_witness :
    (0 ≤ similarity "Ab" "aB" ∧ similarity "Ab" "aB" ≤ 1) ∧ similarity "Ab" "aB" = 1 :=
  ⟨(C1_similarity_range_ascii_amended "Ab" "aB" (by decide) (by decide)).1,
   (C1_similarity_range_ascii_amended "Ab" "aB" (by decide) (by decide)).2 (by decide)⟩

/-! ### C2: find_matches -/

lemma length_pos_of_ne_empty (q : String) (h : q ≠ "") : 0 < q.length := by
  cases q with
  | mk l =>
    cases l with
    | nil => exact absurd rfl h
    | cons a t =>
      show 0 < (List.cons a t).length
      simp

lemma is_substring_utf8_le {q c : String} (hq : allAscii q = true)
    (hc : allAscii c = true) (h : is_substring q c = true) :
    utf8Len q ≤ utf8Len c := by
  have hinf : (strLower q).data <:+: (strLower c).data := of_decide_eq_true h
  have hlen := hinf.length_le
  rw [(strLower_ascii q hq).1, (strLower_ascii c hc).1] at hlen
  rw [utf8Len_eq q hq, utf8Len_eq c hc]
  exact hlen

lemma utf8Len_pos (q : String) (hne : q ≠ "") (hq : allAscii q = true) :
    0 < utf8Len q := by
  rw [utf8Len_eq q hq]
  have := length_pos_of_ne_empty q hne
  exact this

lemma substring_boost_mem_unit (q c : String) (hne : q ≠ "")
    (hq : allAscii q = true) (hc : allAscii c = true) (hsub : is_substring q c = true) :
    0 ≤ (1 : ℚ) / 2 + ((utf8Len q : ℚ) / (utf8Len c : ℚ)) * (1 / 2) ∧
      (1 : ℚ) / 2 + ((utf8Len q : ℚ) / (utf8Len c : ℚ)) * (1 / 2) ≤ 1 := by
  have hle : utf8Len q ≤ utf8Len c := is_substring_utf8_le hq hc hsub
  have hqpos : 0 < utf8Len q := utf8Len_pos q hne hq
  have hcpos : (0 : ℚ) < (utf8Len c : ℚ) := Nat.cast_pos.mpr (lt_of_lt_of_le hqpos hle)
  have h1 : (0 : ℚ) ≤ (utf8Len q : ℚ) / (utf8Len c : ℚ) :=
    div_nonneg (Nat.cast_nonneg _) (le_of_lt hcpos)
  have h2 : (utf8Len q : ℚ) / (utf8Len c : ℚ) ≤ 1 :=
    (div_le_one hcpos).mpr (Nat.cast_le.mpr hle)
  constructor <;> linarith

lemma ratFloor_eq_intFloor (x : ℚ) : Rat.floor x = ⌊x⌋ := rfl

lemma matchLE_trans (a b c : String × ℤ) (hab : matchLE a b = true) (hbc : matchLE b c = true) :
    matchLE a c = true := by
  simp only [matchLE, decide_eq_true_eq] at hab hbc ⊢
  rcases hab with h1 | ⟨h1, h2⟩ <;> rcases hbc with h3 | ⟨h3, h4⟩
  · left; omega
  · left; omega
  · left; omega
  · right; exact ⟨by omega, le_trans h2 h4⟩

lemma matchLE_total (a b : String × ℤ) : (matchLE a b || matchLE b a) = true := by
  simp only [matchLE, Bool.or_eq_true, decide_eq_true_eq]
  rcases lt_trichotomy a.2 b.2 with h | h | h
  · right; left; omega
  · rcases le_total a.1 b.1 with hs | hs
    · left; right; exact ⟨h.symm, hs⟩
    · right; right; exact ⟨h, hs⟩
  · left; left; omega

lemma find_matches_score_range (q : String) (cs : List String)
    (hqa : allAscii q = true) (hcs : ∀ c ∈ cs, allAscii c = true) :
    ∀ p ∈ find_matches q cs, 0 ≤ p.2 ∧ p.2 ≤ 1000 := by
  intro p hp
  by_cases hq : q = ""
  · subst hq
    simp only [find_matches, if_pos rfl] at hp
    obtain ⟨c, _, rfl⟩ := List.mem_map.mp hp
    omega
  · simp only [find_matches, if_neg hq] at hp
    rw [List.mem_mergeSort] at hp
    obtain ⟨c, hcmem, hsome⟩ := List.mem_filterMap.mp hp
    have hca : allAscii c = true := hcs c hcmem
    set B : ℚ :=
      if is_substring q c then
        max (similarity q c) (1 / 2 + ((utf8Len q : ℚ) / (utf8Len c : ℚ)) * (1 / 2))
      else similarity q c with hB
    have hB0 : 0 ≤ B ∧ B ≤ 1 := by
      rw [hB]
      split_ifs with hsub
      · constructor
        · exact le_trans (similarity_mem_unit_ascii q c hqa hca).1 (le_max_left _ _)
        · exact max_le (similarity_mem_unit_ascii q c hqa hca).2
            (substring_boost_mem_unit q c hq hqa hca hsub).2
      · exact similarity_mem_unit_ascii q c hqa hca
    split_ifs at hsome with hcond
    · have hpe : (c, Rat.floor (B * 1000)) = p := Option.some.inj hsome
      subst hpe
      simp only [ratFloor_eq_intFloor]
      constructor
      · have h0 : (0 : ℚ) ≤ B * 1000 := mul_nonneg hB0.1 (by norm_num)
        exact Int.floor_nonneg.mpr h0
      · have h1 : B * 1000 ≤ (1000 : ℚ) := by linarith [hB0.2]
        have h2 : ⌊B * 1000⌋ ≤ ⌊(1000 : ℚ)⌋ := Int.floor_mono h1
        have h3 : ⌊(1000 : ℚ)⌋ = 1000 := by norm_num
        omega

lemma find_matches_empty_query (cs : List String) :
    find_matches "" cs = cs.map (fun c => (c, 0)) := by
  simp only [find_matches, reduceIte]

lemma find_matches_sorted (q : String) (cs : List String) (hq : q ≠ "") :
    List.Pairwise (fun a b : String × ℤ => b.2 < a.2 ∨ (b.2 = a.2 ∧ a.1 ≤ b.1))
      (find_matches q cs) := by
  simp only [find_matches, if_neg hq]
  exact (List.sorted_mergeSort matchLE_trans matchLE_total _).imp
    (fun h => by simpa [matchLE, decide_eq_true_eq] using h)

/-- The two-character string `i` + U+0307 COMBINING DOT ABOVE — the
lowercase of U+0130 — 3 UTF-8 bytes long. -/
def combiningDotQuery : String := ⟨[Char.ofNat 105, Char.ofNat 775]⟩

/-- C2 counterexample.  The query `"i"+U+0307` (3 bytes) against the
candidate `"İ"` (2 bytes) lowercases to an equal string, so similarity
is 1 and the substring boost `0.5 + (3/2)·0.5 = 1.25` applies, giving
the score 1250 — outside the claimed `0..1000`. -/
theorem C2_counterexample :
    find_matches combiningDotQuery [capitalIWithDot] = [(capitalIWithDot, 1250)] ∧
      ¬ (∀ p ∈ find_matches combiningDotQuery [capitalIWithDot], p.2 ≤ 1000) := by
  constructor <;> decide

/-- C2 (amended).  On ASCII queries and candidates — where byte length
equals character count — every score produced by `find_matches` lies in
`0..1000`; the empty query returns every candidate with score 0 in
order; a non-empty query yields a list sorted by score descending with
ties broken by candidate name ascending.  (On non-ASCII input the
substring boost, a ratio of byte lengths, can push a score past 1000:
see the counterexample.) -/
theorem C2_find_matches_scores_and_order_amended (q : String) (cs : List String)
    (hqa : allAscii q = true) (hcs : ∀ c ∈ cs, allAscii c = true) :
    (∀ p ∈ find_matches q cs, 0 ≤ p.2 ∧ p.2 ≤ 1000) ∧
      find_matches "" cs = cs.map (fun c => (c, 0)) ∧
      (q ≠ "" →
        List.Pairwise (fun a b : String × ℤ => b.2 < a.2 ∨ (b.2 = a.2 ∧ a.1 ≤ b.1))
          (find_matches q cs)) :=
  ⟨find_matches_score_range q cs hqa hcs, find_matches_empty_query cs,
   find_matches_sorted q cs⟩

/-- Witness for C2 at a concrete input: query `"workk"` over the
candidates `["work", "x"]`, all ASCII. -/
theorem C2_witness :
    (∀ p ∈ find_matches "workk" ["work", "x"], 0 ≤ p.2 ∧ p.2 ≤ 1000) ∧
      find_matches "" ["work", "x"] = [("work", 0), ("x", 0)] ∧
      List.Pairwise (fun a b : String × ℤ => b.2 < a.2 ∨ (b.2 = a.2 ∧ a.1 ≤ b.1))
        (find_matches "workk" ["work", "x"]) :=
  ⟨(C2_find_matches_scores_and_order_amended "workk" ["work", "x"]
      (by decide) (by decide)).1,
   (C2_find_matches_scores_and_order_amended "workk" ["work", "x"]
      (by decide) (by decide)).2.1,
   (C2_find_matches_scores_and_order_amended "workk" ["work", "x"]
      (by decide) (by decide)).2.2 (by decide)⟩

/-! ### C10: tag idempotence -/

/-- C10.  Adding a tag already present leaves the record unchanged;
removing an absent tag is a no-op that returns `false` rather than an
error. -/
theorem C10_tag_idempotence (a : Alias) (t u : String) :
    (t ∈ a.tags → a.add_tag t = a) ∧ (u ∉ a.tags → a.remove_tag u = (false, a)) := by
  constructor
  · intro h
    have hc : a.tags.contains t = true := by simpa using h
    rw [Alias.add_tag, if_pos hc]
  · intro h
    have hc : ¬ (a.tags.contains u = true) := by simpa using h
    rw [Alias.remove_tag, if_neg hc]

/-- Witness for C10 at a concrete record with tag list `["work"]`. -/
theorem C10_witness :
    Alias.add_tag ⟨"p", "/x", ["work"], 0, none, 0⟩ "work" = ⟨"p", "/x", ["work"], 0, none, 0⟩ ∧
      Alias.remove_tag ⟨"p", "/x", ["work"], 0, none, 0⟩ "q"
        = (false, ⟨"p", "/x", ["work"], 0, none, 0⟩) :=
  ⟨(C10_tag_idempotence ⟨"p", "/x", ["work"], 0, none, 0⟩ "work" "q").1 (by decide),
   (C10_tag_idempotence ⟨"p", "/x", ["work"], 0, none, 0⟩ "work" "q").2 (by decide)⟩

/-! ### C4: tag normalization at the store level -/

lemma sortStr_sorted (l : List String) : (sortStr l).Sorted (fun a b => a ≤ b) := by
  have h := @List.sorted_mergeSort String (fun a b : String => decide (a ≤ b))
    (fun a b c h1 h2 => by
      simp only [decide_eq_true_eq] at h1 h2 ⊢
      exact le_trans h1 h2)
    (fun a b => by
      simp only [Bool.or_eq_true, decide_eq_true_eq]
      exact le_total a b) l
  exact h.imp (fun hd => by simpa using hd)

lemma sortStr_perm (l : List String) : List.Perm (sortStr l) l := List.mergeSort_perm l _

lemma mem_sortStr (t : String) (l : List String) : t ∈ sortStr l ↔ t ∈ l :=
  List.mem_mergeSort

lemma sortStr_nodup (l : List String) (h : l.Nodup) : (sortStr l).Nodup :=
  (sortStr_perm l).nodup_iff.mpr h

/-- The store-level tag invariant of the spec: all lowercase, no
duplicates, sorted. -/
def NormTags (l : List String) : Prop :=
  (∀ t ∈ l, strLower t = t) ∧ l.Nodup ∧ l.Sorted (fun a b => a ≤ b)

lemma insert_find?_self (d : Database) (b : Alias) : (d.insert b).find? b.name = some b := by
  simp only [Database.insert, Database.find?]
  induction d.aliases with
  | nil => simp [insertList]
  | cons c cs ih =>
    simp only [insertList]
    split_ifs with h
    · simp
    · simp only [List.find?_cons]
      have hc : (decide (c.name = b.name)) = false := by simpa using h
      rw [hc]
      exact ih

lemma updateFirst_spec (nm : String) (f : Alias → Alias)
    (hf : ∀ x, (f x).name = x.name) (a0 : Alias) :
    ∀ l : List Alias, List.find? (fun a => a.name = nm) l = some a0 →
      ∃ l2, updateFirst l nm f = some l2 ∧
        List.find? (fun a => a.name = nm) l2 = some (f a0) := by
  intro l
  induction l with
  | nil => intro h; simp at h
  | cons c cs ih =>
    intro h
    by_cases hc : c.name = nm
    · rw [List.find?_cons, show (decide (c.name = nm)) = true by simpa using hc] at h
      have hca : c = a0 := by simpa using h
      subst hca
      refine ⟨f c :: cs, ?_, ?_⟩
      · simp [updateFirst, hc]
      · rw [List.find?_cons, show (decide ((f c).name = nm)) = true by simp [hf c, hc]]
    · rw [List.find?_cons, show (decide (c.name = nm)) = false by simpa using hc] at h
      obtain ⟨l2, h1, h2⟩ := ih h
      refine ⟨c :: l2, ?_, ?_⟩
      · simp [updateFirst, hc, h1]
      · rw [List.find?_cons, show (decide (c.name = nm)) = false by simpa using hc]
        exact h2

/-- Counterexample to C4 as stated: `add_with_tags` with the raw tag
list `["b", "B", "b"]` stores it merely sorted — still containing the
uppercase `"B"` and a duplicate — so the stored tag list is neither
all-lowercase nor duplicate-free. -/
theorem C4_counterexample :
    (Database.empty.add_with_tags ⟨"a", "/p", [], 0, none, 0⟩ ["b", "B", "b"]).2.find? "a"
        = some ⟨"a", "/p", ["B", "b", "b"], 0, none, 0⟩ ∧
      ¬ (∀ t ∈ (["B", "b", "b"] : List String), strLower t = t) ∧
      ¬ (["B", "b", "b"] : List String).Nodup := by
  refine ⟨by decide, by decide, by decide⟩

/-- C4 amended.  The store-level operations only **sort**:
`add_with_tags` and `set_tags` store exactly the sorted supplied list,
and lowercasing plus deduplication happen in the command layer
(`validate_and_normalize_tags` in register.rs, `tag` in tags.rs) before
the store is called.  Whenever the supplied tags are lowercase and
duplicate-free — as that layer guarantees — the stored tag list is
lowercase, duplicate-free and sorted, and `add_tag` preserves that
invariant. -/
theorem C4_tags_sorted_only_amended :
    (∀ (d : Database) (a : Alias) (tags : List String),
        d.containsB a.name = false →
          (d.add_with_tags a tags).2.find? a.name = some { a with tags := sortStr tags }) ∧
      (∀ (d : Database) (nm : String) (tags : List String) (a0 : Alias),
          d.find? nm = some a0 →
            (d.set_tags nm tags).2.find? nm = some { a0 with tags := sortStr tags }) ∧
      (∀ tags : List String,
          (∀ t ∈ tags, strLower t = t) → tags.Nodup → NormTags (sortStr tags)) ∧
      (∀ (a : Alias) (tg : String),
          NormTags a.tags → strLower tg = tg → NormTags (a.add_tag tg).tags) := by
  refine ⟨?_, ?_, ?_, ?_⟩
  · intro d a tags hfree
    simp only [Database.add_with_tags, hfree, Bool.false_eq_true, if_false]
    exact insert_find?_self d { a with tags := sortStr tags }
  · intro d nm tags a0 hfind
    obtain ⟨l2, h1, h2⟩ := updateFirst_spec nm (fun a => { a with tags := sortStr tags })
      (fun x => rfl) a0 d.aliases hfind
    simp only [Database.set_tags, h1, Database.find?]
    exact h2
  · intro tags hlow hnodup
    exact ⟨fun t ht => hlow t ((mem_sortStr t tags).mp ht),
      sortStr_nodup tags hnodup, sortStr_sorted tags⟩
  · intro a tg hN htg
    by_cases hc : a.tags.contains tg = true
    · rw [Alias.add_tag, if_pos hc]
      exact hN
    · have hmem : tg ∉ a.tags := by simpa using hc
      rw [Alias.add_tag, if_neg hc]
      refine ⟨?_, ?_, ?_⟩
      · intro t ht
        rcases List.mem_append.mp ((mem_sortStr t _).mp ht) with h | h
        · exact hN.1 t h
        · rw [List.mem_singleton] at h
          rw [h]
          exact htg
      · refine sortStr_nodup _ ?_
        rw [List.nodup_append]
        exact ⟨hN.2.1, List.nodup_singleton tg, by simpa using hmem⟩
      · exact sortStr_sorted _

/-- Witness for the amended C4 at concrete inputs. -/
theorem C4_witness :
    (Database.empty.add_with_tags ⟨"a", "/p", [], 0, none, 0⟩ ["work", "b"]).2.find? "a"
        = some ⟨"a", "/p", ["b", "work"], 0, none, 0⟩ ∧
      (Database.mk [⟨"a", "/p", ["x"], 0, none, 0⟩] false |>.set_tags "a" ["d", "c"]).2.find? "a"
        = some ⟨"a", "/p", ["c", "d"], 0, none, 0⟩ ∧
      NormTags (sortStr ["b", "a"]) ∧
      NormTags ((Alias.add_tag ⟨"a", "/p", ["a", "c"], 0, none, 0⟩ "b").tags) := by
  refine ⟨?_, ?_, ?_, ?_⟩
  · rw [C4_tags_sorted_only_amended.1 Database.empty ⟨"a", "/p", [], 0, none, 0⟩
      ["work", "b"] (by decide)]
    decide
  · rw [C4_tags_sorted_only_amended.2.1 (Database.mk [⟨"a", "/p", ["x"], 0, none, 0⟩] false)
      "a" ["d", "c"] ⟨"a", "/p", ["x"], 0, none, 0⟩ (by decide)]
    decide
  · exact C4_tags_sorted_only_amended.2.2.1 ["b", "a"] (by decide) (by decide)
  · exact C4_tags_sorted_only_amended.2.2.2 ⟨"a", "/p", ["a", "c"], 0, none, 0⟩ "b"
      ⟨by decide, by decide, by decide⟩ (by decide)

/-! ### C3 and C5: uniqueness of names, rename semantics -/

/-- No two records of the store share a name (the `HashMap` key
invariant, observed through the model). -/
abbrev NodupNames (d : Database) : Prop := (d.aliases.map Alias.name).Nodup

/-- One mutating step of the C3 claim: an `add` or a `rename_alias`
call, keeping the resulting store whether or not the call failed. -/
inductive StoreOp
  | add (a : Alias)
  | rename (old_name new_name : String)

/-- Apply a `StoreOp` to a store. -/
def applyOp (d : Database) (op : StoreOp) : Database :=
  match op with
  | StoreOp.add a => (d.add a).2
  | StoreOp.rename o n => (d.rename_alias o n).2

lemma containsB_iff (d : Database) (n : String) :
    d.containsB n = true ↔ n ∈ d.aliases.map Alias.name := by
  simp only [Database.containsB, List.any_eq_true, decide_eq_true_eq, List.mem_map]

lemma insertList_eq_append (l : List Alias) (a : Alias) (h : a.name ∉ l.map Alias.name) :
    insertList l a = l ++ [a] := by
  induction l with
  | nil => rfl
  | cons b bs ih =>
    simp only [List.map_cons, List.mem_cons, not_or] at h
    rw [insertList, if_neg (fun he => h.1 he.symm), ih h.2]
    simp

lemma removeFirst_of_find?_none (l : List Alias) (n : String)
    (h : List.find? (fun a => a.name = n) l = none) : removeFirst l n = (none, l) := by
  induction l with
  | nil => rfl
  | cons b bs ih =>
    by_cases hb : b.name = n
    · rw [List.find?_cons, show (decide (b.name = n)) = true by simpa using hb] at h
      simp at h
    · rw [List.find?_cons, show (decide (b.name = n)) = false by simpa using hb] at h
      simp [removeFirst, hb, ih h]

lemma removeFirst_fst (l : List Alias) (n : String) (a0 : Alias)
    (h : List.find? (fun a => a.name = n) l = some a0) : (removeFirst l n).1 = some a0 := by
  induction l with
  | nil => simp at h
  | cons b bs ih =>
    by_cases hb : b.name = n
    · rw [List.find?_cons, show (decide (b.name = n)) = true by simpa using hb] at h
      simp only [Option.some.injEq] at h
      subst h
      simp [removeFirst, hb]
    · rw [List.find?_cons, show (decide (b.name = n)) = false by simpa using hb] at h
      simp [removeFirst, hb, ih h]

lemma removeFirst_sublist (l : List Alias) (n : String) : (removeFirst l n).2.Sublist l := by
  induction l with
  | nil => simp [removeFirst]
  | cons b bs ih =>
    by_cases hb : b.name = n
    · simp only [removeFirst, if_pos hb]
      exact List.sublist_cons_self b bs
    · simp only [removeFirst, if_neg hb]
      exact ih.cons₂ b

lemma add_preserves_nodup (d : Database) (a : Alias) (h : NodupNames d) :
    NodupNames (d.add a).2 := by
  by_cases hc : d.containsB a.name = true
  · simp [Database.add, hc]
    exact h
  · have hnm : a.name ∉ d.aliases.map Alias.name := fun hmem =>
      hc ((containsB_iff d a.name).mpr hmem)
    have hb : d.containsB a.name = false := by
      cases hcb : d.containsB a.name
      · rfl
      · exact absurd hcb hc
    simp only [Database.add, hb, Bool.false_eq_true, if_false]
    show ((insertList d.aliases a).map Alias.name).Nodup
    rw [insertList_eq_append d.aliases a hnm, List.map_append]
    simp only [List.map_cons, List.map_nil]
    rw [List.nodup_append]
    exact ⟨h, List.nodup_singleton a.name, by simpa using hnm⟩

lemma rename_preserves_nodup (d : Database) (o n : String) (h : NodupNames d) :
    NodupNames (d.rename_alias o n).2 := by
  by_cases hc : d.containsB n = true
  · simp [Database.rename_alias, hc]
    exact h
  · have hnm : n ∉ d.aliases.map Alias.name := fun hmem =>
      hc ((containsB_iff d n).mpr hmem)
    have hb : d.containsB n = false := by
      cases hcb : d.containsB n
      · rfl
      · exact absurd hcb hc
    cases hf : List.find? (fun a => a.name = o) d.aliases with
    | none =>
      have hr := removeFirst_of_find?_none d.aliases o hf
      simp [Database.rename_alias, hb, hr]
      exact h
    | some a0 =>
      have hr1 := removeFirst_fst d.aliases o a0 hf
      have hr2 := removeFirst_sublist d.aliases o
      simp only [Database.rename_alias, hb, Bool.false_eq_true, if_false, hr1]
      show ((insertList (removeFirst d.aliases o).2 { a0 with name := n }).map Alias.name).Nodup
      have hsub : ((removeFirst d.aliases o).2.map Alias.name).Sublist
          (d.aliases.map Alias.name) := hr2.map Alias.name
      have hnm2 : n ∉ (removeFirst d.aliases o).2.map Alias.name := fun hmem =>
        hnm (hsub.mem hmem)
      rw [insertList_eq_append _ _ hnm2, List.map_append]
      simp only [List.map_cons, List.map_nil]
      rw [List.nodup_append]
      exact ⟨h.sublist hsub, List.nodup_singleton n, by simpa using hnm2⟩

/-- C3.  Every sequence of `add` / `rename_alias` operations preserves
uniqueness of names, and attempting to add or rename into a taken name
returns AlreadyExists leaving the store — both existing and candidate
records — exactly unchanged. -/
theorem C3_uniqueness_invariant :
    (∀ (ops : List StoreOp) (d : Database), NodupNames d →
        NodupNames (ops.foldl applyOp d)) ∧
      (∀ (d : Database) (a : Alias), d.containsB a.name = true →
          d.add a = (Except.error (AliasError.alreadyExists a.name), d)) ∧
      (∀ (d : Database) (old_name new_name : String), d.containsB new_name = true →
          d.rename_alias old_name new_name
            = (Except.error (AliasError.alreadyExists new_name), d)) := by
  refine ⟨?_, ?_, ?_⟩
  · intro ops
    induction ops with
    | nil => intro d h; exact h
    | cons op rest ih =>
      intro d h
      rw [List.foldl_cons]
      refine ih (applyOp d op) ?_
      cases op with
      | add a => exact add_preserves_nodup d a h
      | rename o n => exact rename_preserves_nodup d o n h
  · intro d a h
    simp [Database.add, h]
  · intro d old_name new_name h
    simp [Database.rename_alias, h]

/-- Witness for C3: two operations from the empty store, plus concrete
occupied-name failures. -/
theorem C3_witness :
    NodupNames ([StoreOp.add ⟨"a", "/p", [], 0, none, 0⟩,
        StoreOp.rename "a" "b"].foldl applyOp Database.empty) ∧
      (Database.mk [⟨"a", "/p", [], 0, none, 0⟩] false).add ⟨"a", "/q", [], 0, none, 0⟩
        = (Except.error (AliasError.alreadyExists "a"),
           Database.mk [⟨"a", "/p", [], 0, none, 0⟩] false) ∧
      (Database.mk [⟨"b", "/p", [], 0, none, 0⟩] false).rename_alias "a" "b"
        = (Except.error (AliasError.alreadyExists "b"),
           Database.mk [⟨"b", "/p", [], 0, none, 0⟩] false) :=
  ⟨(C3_uniqueness_invariant.1 [StoreOp.add ⟨"a", "/p", [], 0, none, 0⟩,
      StoreOp.rename "a" "b"] Database.empty List.nodup_nil),
   C3_uniqueness_invariant.2.1 (Database.mk [⟨"a", "/p", [], 0, none, 0⟩] false)
     ⟨"a", "/q", [], 0, none, 0⟩ (by decide),
   C3_uniqueness_invariant.2.2 (Database.mk [⟨"b", "/p", [], 0, none, 0⟩] false)
     "a" "b" (by decide)⟩

lemma find?_insertList_self (l : List Alias) (b : Alias) :
    List.find? (fun a => a.name = b.name) (insertList l b) = some b := by
  induction l with
  | nil => simp [insertList]
  | cons c cs ih =>
    simp only [insertList]
    split_ifs with h
    · simp
    · rw [List.find?_cons, show (decide (c.name = b.name)) = false by simpa using h]
      exact ih

/-- Counterexample to C5 as stated: when the old name is absent **and**
the new name is taken, `rename_alias` reports AlreadyExists, not
NotFound — the AlreadyExists check runs first. -/
theorem C5_counterexample :
    ¬ (∀ (d : Database) (old_name new_name : String),
        d.find? old_name = none →
          (d.rename_alias old_name new_name).1
            = Except.error (AliasError.notFound old_name)) := by
  intro h
  have h2 := h (Database.mk [⟨"b", "/p", [], 0, none, 0⟩] false) "a" "b" (by decide)
  have h3 : ((Database.mk [⟨"b", "/p", [], 0, none, 0⟩] false).rename_alias "a" "b").1
      = Except.error (AliasError.alreadyExists "b") := rfl
  rw [h3] at h2
  simp at h2

/-- C5 amended.  `rename_alias` fails with AlreadyExists whenever the
new name is taken (this check runs first), fails with NotFound when the
old name is absent and the new name is free, and on success re-keys the
record keeping path, tags, use_count, last_used and created_at
unchanged. -/
theorem C5_rename_semantics_amended (d : Database) (old_name new_name : String) :
    (d.containsB new_name = true →
        d.rename_alias old_name new_name
          = (Except.error (AliasError.alreadyExists new_name), d)) ∧
      (d.containsB new_name = false → d.find? old_name = none →
          d.rename_alias old_name new_name
            = (Except.error (AliasError.notFound old_name), d)) ∧
      (∀ a, d.containsB new_name = false → d.find? old_name = some a →
          (d.rename_alias old_name new_name).1 = Except.ok () ∧
            (d.rename_alias old_name new_name).2.find? new_name
              = some ⟨new_name, a.path, a.tags, a.use_count, a.last_used, a.created_at⟩) := by
  refine ⟨?_, ?_, ?_⟩
  · intro h
    simp [Database.rename_alias, h]
  · intro h1 h2
    have hr := removeFirst_of_find?_none d.aliases old_name
      (by simpa [Database.find?] using h2)
    simp [Database.rename_alias, h1, hr]
  · intro a h1 h2
    have hr := removeFirst_fst d.aliases old_name a
      (by simpa [Database.find?] using h2)
    constructor
    · simp [Database.rename_alias, h1, hr]
    · simp only [Database.rename_alias, h1, Bool.false_eq_true, if_false, hr]
      show (Database.mk (insertList (removeFirst d.aliases old_name).2
          { a with name := new_name }) true).find? new_name = _
      simp only [Database.find?]
      exact find?_insertList_self (removeFirst d.aliases old_name).2
        { a with name := new_name }

/-- Witness for the amended C5 at concrete stores. -/
theorem C5_witness :
    ((Database.mk [⟨"b", "/p", [], 0, none, 0⟩] false).rename_alias "a" "b"
        = (Except.error (AliasError.alreadyExists "b"),
           Database.mk [⟨"b", "/p", [], 0, none, 0⟩] false)) ∧
      ((Database.mk [⟨"b", "/p", [], 0, none, 0⟩] false).rename_alias "a" "c"
        = (Except.error (AliasError.notFound "a"),
           Database.mk [⟨"b", "/p", [], 0, none, 0⟩] false)) ∧
      (((Database.mk [⟨"b", "/p", ["t"], 7, some 3, 5⟩] false).rename_alias "b" "c").1
          = Except.ok () ∧
        ((Database.mk [⟨"b", "/p", ["t"], 7, some 3, 5⟩] false).rename_alias "b" "c").2.find? "c"
          = some ⟨"c", "/p", ["t"], 7, some 3, 5⟩) :=
  ⟨(C5_rename_semantics_amended (Database.mk [⟨"b", "/p", [], 0, none, 0⟩] false) "a" "b").1
      (by decide),
   (C5_rename_semantics_amended (Database.mk [⟨"b", "/p", [], 0, none, 0⟩] false) "a" "c").2.1
      (by decide) (by decide),
   (C5_rename_semantics_amended (Database.mk [⟨"b", "/p", ["t"], 7, some 3, 5⟩] false) "b"
      "c").2.2 ⟨"b", "/p", ["t"], 7, some 3, 5⟩ (by decide) (by decide)⟩

/-! ### C6: legacy migration -/

lemma migrate_fold (now : Nat) :
    ∀ (lines : List String) (acc : List Alias),
      (acc.map Alias.name ++ (lines.filterMap parseLine).map Prod.fst).Nodup →
      lines.foldl (fun acc line =>
          match parseLine line with
          | none => acc
          | some np => insertList acc (migratedAlias now np)) acc
        = acc ++ (lines.filterMap parseLine).map (migratedAlias now) := by
  intro lines
  induction lines with
  | nil =>
    intro acc _
    simp
  | cons line rest ih =>
    intro acc h
    rw [List.foldl_cons]
    cases hp : parseLine line with
    | none =>
      rw [List.filterMap_cons, hp] at h ⊢
      simpa [hp] using ih acc h
    | some np =>
      rw [List.filterMap_cons, hp] at h ⊢
      simp only [hp, List.map_cons]
      have hmem : np.1 ∉ acc.map Alias.name := by
        rw [List.nodup_append] at h
        intro hin
        exact h.2.2 hin (by simp)
      have hins : insertList acc (migratedAlias now np) = acc ++ [migratedAlias now np] :=
        insertList_eq_append acc (migratedAlias now np) hmem
      rw [hins]
      have h2 : ((acc ++ [migratedAlias now np]).map Alias.name
          ++ ((rest.filterMap parseLine).map Prod.fst)).Nodup := by
        rw [List.map_append]
        rw [List.append_assoc]
        simpa [migratedAlias] using h
      rw [ih (acc ++ [migratedAlias now np]) h2]
      simp

lemma find?_map_migrated (now : Nat) :
    ∀ (valids : List (String × String)), (valids.map Prod.fst).Nodup →
      ∀ np ∈ valids,
        List.find? (fun a => a.name = np.1) (valids.map (migratedAlias now))
          = some (migratedAlias now np) := by
  intro valids
  induction valids with
  | nil => intro _ np hm; cases hm
  | cons q rest ih =>
    intro h np hm
    rcases List.mem_cons.mp hm with he | hm2
    · subst he
      rw [List.map_cons, List.find?_cons,
        show (decide ((migratedAlias now np).name = np.1)) = true by simp [migratedAlias]]
    · have hq : q.1 ≠ np.1 := by
        intro he
        have hmem : np.1 ∈ rest.map Prod.fst := List.mem_map.mpr ⟨np, hm2, rfl⟩
        rw [← he] at hmem
        exact (List.nodup_cons.mp (by simpa using h)).1 hmem
      rw [List.map_cons, List.find?_cons,
        show (decide ((migratedAlias now q).name = np.1)) = false by simp [migratedAlias, hq]]
      exact ih (by simpa using (List.nodup_cons.mp (by simpa using h)).2) np hm2

/-- Counterexample to C6 as stated: two valid lines that share the name
`"a"` collapse into a single record (the `HashMap` insert overwrites),
so N valid lines do not always produce N records. -/
theorem C6_counterexample :
    ((linesOf "a x\na y").filterMap parseLine).length = 2 ∧
      (migrate_from_text_format "a x\na y" 0).aliases.length = 1 := by
  refine ⟨by decide, by decide⟩

/-- C6 amended.  When the valid lines carry pairwise distinct names
(later duplicate names would overwrite earlier ones), migrating a
legacy file yields exactly one record per valid line: each line is
split at its first space into name and rest-of-line path, and the
record has no tags, use_count 0, no last_used, and created_at equal to
the migration time. -/
theorem C6_migration_amended (content : String) (now : Nat)
    (hnodup : (((linesOf content).filterMap parseLine).map Prod.fst).Nodup) :
    (migrate_from_text_format content now).aliases
        = ((linesOf content).filterMap parseLine).map (migratedAlias now) ∧
      (migrate_from_text_format content now).aliases.length
        = ((linesOf content).filterMap parseLine).length ∧
      ∀ np ∈ (linesOf content).filterMap parseLine,
        (migrate_from_text_format content now).find? np.1
          = some ⟨np.1, np.2, [], 0, none, now⟩ := by
  have hfold := migrate_fold now (linesOf content) [] (by simpa using hnodup)
  have hal : (migrate_from_text_format content now).aliases
      = ((linesOf content).filterMap parseLine).map (migratedAlias now) := by
    simpa [migrate_from_text_format, migrateLines] using hfold
  refine ⟨hal, by rw [hal]; simp, ?_⟩
  intro np hm
  show List.find? _ (migrate_from_text_format content now).aliases = _
  rw [hal]
  exact find?_map_migrated now ((linesOf content).filterMap parseLine) hnodup np hm

/-- Witness for the amended C6 on a two-line legacy file. -/
theorem C6_witness :
    (migrate_from_text_format "a x\nb y z" 7).aliases
        = ((linesOf "a x\nb y z").filterMap parseLine).map (migratedAlias 7) ∧
      (migrate_from_text_format "a x\nb y z" 7).aliases.length
        = ((linesOf "a x\nb y z").filterMap parseLine).length ∧
      ∀ np ∈ (linesOf "a x\nb y z").filterMap parseLine,
        (migrate_from_text_format "a x\nb y z" 7).find? np.1
          = some ⟨np.1, np.2, [], 0, none, 7⟩ :=
  C6_migration_amended "a x\nb y z" 7 (by decide)

/-! ### C7: export / import round-trip -/

lemma find?_insertList_ne (l : List Alias) (b : Alias) (n : String) (hn : n ≠ b.name) :
    List.find? (fun x => x.name = n) (insertList l b)
      = List.find? (fun x => x.name = n) l := by
  induction l with
  | nil =>
    simp only [insertList]
    rw [List.find?_cons, show (decide (b.name = n)) = false by simp [Ne.symm hn]]
  | cons c cs ih =>
    simp only [insertList]
    split_ifs with h
    · rw [List.find?_cons, List.find?_cons,
        show (decide (b.name = n)) = false by simp [Ne.symm hn],
        show (decide (c.name = n)) = false by simp [h, Ne.symm hn]]
    · rw [List.find?_cons, List.find?_cons]
      cases hc : decide (c.name = n)
      · exact ih
      · rfl

lemma importLoop_fresh (pathExists : String → Bool) (strategy : ImportStrategy) :
    ∀ (todo : List Alias) (existing : List String) (res : ImportResult) (db : Database),
      (∀ a ∈ todo, validAliasName a.name = true) →
      (∀ a ∈ todo, existing.contains a.name = false) →
      (todo.map Alias.name).Nodup →
      (∀ a ∈ todo, a.name ∉ db.aliases.map Alias.name) →
      (importLoop pathExists strategy todo existing res db).2.aliases
        = db.aliases ++ todo := by
  intro todo
  induction todo with
  | nil =>
    intro existing res db _ _ _ _
    simp [importLoop]
  | cons a rest ih =>
    intro existing res db hvalid hfresh hnodup hdb
    have hv : ¬ (validAliasName a.name = false) := by
      simp [hvalid a (by simp)]
    have hc : ¬ (existing.contains a.name = true) := by
      simpa using hfresh a (by simp)
    have hval2 : ∀ b ∈ rest, validAliasName b.name = true :=
      fun b hb => hvalid b (by simp [hb])
    have hfresh2 : ∀ b ∈ rest, (a.name :: existing).contains b.name = false := by
      intro b hb
      have h1 : b.name ≠ a.name := by
        intro he
        have hmm : a.name ∈ rest.map Alias.name := List.mem_map.mpr ⟨b, hb, he⟩
        exact (List.nodup_cons.mp (by simpa using hnodup)).1 hmm
      have h2 := hfresh b (by simp [hb])
      rw [List.contains_cons, h2]
      simp [h1]
    have hnodup2 : (rest.map Alias.name).Nodup :=
      (List.nodup_cons.mp (by simpa using hnodup)).2
    have hdb2 : ∀ b ∈ rest, b.name ∉ (db.aliases ++ [a]).map Alias.name := by
      intro b hb
      rw [List.map_append]
      simp only [List.map_cons, List.map_nil]
      intro hmem
      rcases List.mem_append.mp hmem with h | h
      · exact hdb b (by simp [hb]) h
      · rw [List.mem_singleton] at h
        have hmm : a.name ∈ rest.map Alias.name := List.mem_map.mpr ⟨b, hb, h⟩
        exact (List.nodup_cons.mp (by simpa using hnodup)).1 hmm
    have hins2 : Database.insert db a = Database.mk (db.aliases ++ [a]) true := by
      simp [Database.insert, insertList_eq_append db.aliases a (hdb a (by simp))]
    rw [importLoop, if_neg hv, if_neg hc, hins2,
      ih (a.name :: existing) _ (Database.mk (db.aliases ++ [a]) true)
        hval2 hfresh2 hnodup2 hdb2]
    simp

/-- Counterexample to C7 as stated: a store holding a record whose name
is invalid (reachable through `insert`, migration or `load_toml`, none
of which validate) does not survive the round-trip — import validates
names and skips the record, so the resulting store is empty. -/
theorem C7_counterexample :
    import_from_content (fun _ => true) Database.empty
        (export_records (Database.mk [⟨"-bad", "/p", [], 0, none, 0⟩] false))
        ImportStrategy.skip
      = Except.ok (⟨0, 1, 0, ["skipping invalid alias name: -bad"]⟩, Database.empty) ∧
      ¬ List.Perm (Database.empty).aliases
          (Database.mk [⟨"-bad", "/p", [], 0, none, 0⟩] false).aliases := by
  constructor
  · rfl
  · intro hp
    have := hp.length_eq
    simp [Database.empty] at this

/-- C7 amended.  For every non-empty store whose record names are all
valid, exporting and importing the payload into an empty store succeeds
and reproduces the records — same multiset of name, path, tags,
use_count, last_used and created_at values — under any strategy. -/
theorem C7_roundtrip_amended (d : Database) (pathExists : String → Bool)
    (strategy : ImportStrategy) (hne : d.aliases ≠ []) (hnodup : NodupNames d)
    (hvalid : ∀ a ∈ d.aliases, validAliasName a.name = true) :
    ∃ res d2,
      import_from_content pathExists Database.empty (export_records d) strategy
        = Except.ok (res, d2) ∧ List.Perm d2.aliases d.aliases := by
  have hperm : List.Perm (export_records d) d.aliases := List.mergeSort_perm d.aliases _
  have hiso : (export_records d).isEmpty = false := by
    cases hexp : export_records d with
    | nil =>
      rw [hexp] at hperm
      exact absurd hperm.symm.eq_nil hne
    | cons x t => rfl
  rw [import_from_content, if_neg (by simp [hiso])]
  refine ⟨_, _, rfl, ?_⟩
  have hfold := importLoop_fresh pathExists strategy (export_records d)
    (Database.empty).names ⟨0, 0, 0, []⟩ Database.empty
    (fun a ha => hvalid a (hperm.mem_iff.mp ha))
    (fun a _ => rfl)
    ((hperm.map Alias.name).nodup_iff.mpr hnodup)
    (fun a _ => by simp [Database.empty])
  rw [hfold]
  simpa using hperm

/-- Witness for the amended C7: a two-record store round-trips into the
same multiset of records. -/
theorem C7_witness :
    ∃ res d2,
      import_from_content (fun _ => true) Database.empty
          (export_records (Database.mk [⟨"b", "/p", ["t"], 2, some 1, 0⟩,
            ⟨"a", "/q", [], 0, none, 0⟩] false)) ImportStrategy.skip
        = Except.ok (res, d2) ∧
      List.Perm d2.aliases
        (Database.mk [⟨"b", "/p", ["t"], 2, some 1, 0⟩,
          ⟨"a", "/q", [], 0, none, 0⟩] false).aliases :=
  C7_roundtrip_amended
    (Database.mk [⟨"b", "/p", ["t"], 2, some 1, 0⟩, ⟨"a", "/q", [], 0, none, 0⟩] false)
    (fun _ => true) ImportStrategy.skip (by decide) (by decide) (by decide)

/-! ### C9: import under the Rename strategy -/

lemma findUniqueAux_spec (base : String) (existing : List String) :
    ∀ (fuel k : Nat),
      (∃ j, j < fuel ∧ existing.contains (suffixName base (k + j)) = false) →
      ∃ j0, findUniqueAux base existing fuel k = suffixName base (k + j0) ∧
        existing.contains (suffixName base (k + j0)) = false ∧
        ∀ i, i < j0 → existing.contains (suffixName base (k + i)) = true := by
  intro fuel
  induction fuel with
  | zero =>
    intro k h
    obtain ⟨j, hj, _⟩ := h
    exact absurd hj (Nat.not_lt_zero j)
  | succ fuel ih =>
    intro k h
    cases hc : existing.contains (suffixName base k) with
    | false =>
      refine ⟨0, ?_, ?_, ?_⟩
      · rw [findUniqueAux, if_neg (by rw [hc]; simp), Nat.add_zero]
      · rw [Nat.add_zero]
        exact hc
      · intro i hi
        exact absurd hi (Nat.not_lt_zero i)
    | true =>
      have h2 : ∃ j, j < fuel ∧ existing.contains (suffixName base ((k + 1) + j)) = false := by
        obtain ⟨j, hj, hfree⟩ := h
        cases j with
        | zero =>
          rw [Nat.add_zero] at hfree
          rw [hfree] at hc
          exact absurd hc (by simp)
        | succ j2 =>
          exact ⟨j2, by omega, by rw [show (k + 1) + j2 = k + (j2 + 1) by omega]; exact hfree⟩
      obtain ⟨j0, h1, h2f, h3⟩ := ih (k + 1) h2
      refine ⟨j0 + 1, ?_, ?_, ?_⟩
      · rw [findUniqueAux, if_pos hc, h1, show (k + 1) + j0 = k + (j0 + 1) by omega]
      · rw [show k + (j0 + 1) = (k + 1) + j0 by omega]
        exact h2f
      · intro i hi
        cases i with
        | zero =>
          rw [Nat.add_zero]
          exact hc
        | succ i2 =>
          rw [show k + (i2 + 1) = (k + 1) + i2 by omega]
          exact h3 i2 (by omega)

/-- `find_unique_name` returns the first unused candidate `base_2`,
`base_3`, … provided a free candidate exists within the fuel bound (the
Rust loop's termination is exactly this pigeonhole fact). -/
lemma find_unique_name_spec (base : String) (existing : List String)
    (hfree : ∃ j, j < existing.length + 1 ∧
        existing.contains (suffixName base (2 + j)) = false) :
    ∃ k0, find_unique_name base existing = suffixName base (2 + k0) ∧
      existing.contains (suffixName base (2 + k0)) = false ∧
      ∀ i, i < k0 → existing.contains (suffixName base (2 + i)) = true :=
  findUniqueAux_spec base existing (existing.length + 1) 2 hfree

lemma find?_insert_ne (d : Database) (b : Alias) (n : String) (hn : n ≠ b.name) :
    (d.insert b).find? n = d.find? n := by
  simp only [Database.insert, Database.find?]
  exact find?_insertList_ne d.aliases b n hn

/-- C9.  Importing under the Rename strategy a payload of two records
that both collide with an existing alias name leaves the existing
record unchanged, inserts the first under the first unused name of the
form `name_2`, `name_3`, … scanned against the pre-existing names, and
the second under the first unused name scanned against the pre-existing
names **plus** the name just produced in this same run; both count as
renamed and nothing is imported or skipped.  The fuel hypotheses state
that a free candidate exists within the scan bound, which is exactly
why the Rust loop terminates. -/
theorem C9_import_rename_strategy (d : Database) (a a2 : Alias) (pathExists : String → Bool)
    (hname : a2.name = a.name)
    (hvalid : validAliasName a.name = true)
    (hcol : d.names.contains a.name = true)
    (hfree1 : ∃ j, j < d.names.length + 1 ∧
        d.names.contains (suffixName a.name (2 + j)) = false)
    (hfree2 : ∃ j, j < (find_unique_name a.name d.names :: d.names).length + 1 ∧
        (find_unique_name a.name d.names :: d.names).contains (suffixName a.name (2 + j))
          = false) :
    ∃ res d2,
      import_from_content pathExists d [a, a2] ImportStrategy.rename
          = Except.ok (res, d2) ∧
        res.imported = 0 ∧ res.skipped = 0 ∧ res.renamed = 2 ∧
        d2.find? a.name = d.find? a.name ∧
        d2.find? (find_unique_name a.name d.names)
          = some { a with name := find_unique_name a.name d.names } ∧
        d2.find? (find_unique_name a.name (find_unique_name a.name d.names :: d.names))
          = some { a2 with
              name := find_unique_name a.name (find_unique_name a.name d.names :: d.names) } ∧
        (∃ k0, find_unique_name a.name d.names = suffixName a.name (2 + k0) ∧
          d.names.contains (suffixName a.name (2 + k0)) = false ∧
          ∀ i, i < k0 → d.names.contains (suffixName a.name (2 + i)) = true) := by
  obtain ⟨k0, hk0eq, hk0free, hk0min⟩ := find_unique_name_spec a.name d.names hfree1
  obtain ⟨k1, hk1eq, hk1free, hk1min⟩ :=
    find_unique_name_spec a.name (find_unique_name a.name d.names :: d.names) hfree2
  have hmem_a : a.name ∈ d.names := by simpa using hcol
  have hfn2 : d.names.contains (find_unique_name a.name d.names) = false := by
    rw [hk0eq]
    exact hk0free
  have hnm2 : find_unique_name a.name d.names ∉ d.names := by simpa using hfn2
  have hne2a : find_unique_name a.name d.names ≠ a.name := by
    intro he
    apply hnm2
    rw [he]
    exact hmem_a
  have hfn3 : (find_unique_name a.name d.names :: d.names).contains
      (find_unique_name a.name (find_unique_name a.name d.names :: d.names)) = false := by
    rw [hk1eq]
    exact hk1free
  have hnm3 : find_unique_name a.name (find_unique_name a.name d.names :: d.names)
      ∉ find_unique_name a.name d.names :: d.names := by simpa using hfn3
  have h3or : ¬ (find_unique_name a.name (find_unique_name a.name d.names :: d.names)
        = find_unique_name a.name d.names ∨
      find_unique_name a.name (find_unique_name a.name d.names :: d.names) ∈ d.names) :=
    fun hor => hnm3 (List.mem_cons.mpr hor)
  have hne32 : find_unique_name a.name (find_unique_name a.name d.names :: d.names)
      ≠ find_unique_name a.name d.names := fun he => h3or (Or.inl he)
  have hn3d : find_unique_name a.name (find_unique_name a.name d.names :: d.names)
      ∉ d.names := fun hm => h3or (Or.inr hm)
  have hne3a : find_unique_name a.name (find_unique_name a.name d.names :: d.names)
      ≠ a.name := by
    intro he
    apply hn3d
    rw [he]
    exact hmem_a
  have ht : (find_unique_name a.name d.names :: d.names).contains a.name = true := by
    rw [List.contains_cons, hcol]
    simp
  have hloop :
      (importLoop pathExists ImportStrategy.rename [a, a2] d.names ⟨0, 0, 0, []⟩ d).2
          = (d.insert { a with name := find_unique_name a.name d.names }).insert
              { a2 with
                name := find_unique_name a.name (find_unique_name a.name d.names :: d.names) } ∧
        (importLoop pathExists ImportStrategy.rename [a, a2] d.names ⟨0, 0, 0, []⟩ d).1.imported
          = 0 ∧
        (importLoop pathExists ImportStrategy.rename [a, a2] d.names ⟨0, 0, 0, []⟩ d).1.skipped
          = 0 ∧
        (importLoop pathExists ImportStrategy.rename [a, a2] d.names ⟨0, 0, 0, []⟩ d).1.renamed
          = 2 := by
    cases hp1 : pathExists a.path <;> cases hp2 : pathExists a2.path <;>
      · simp only [importLoop, hvalid, hname, hcol, ht, hp1, hp2, Bool.true_eq_false,
          Bool.false_eq_true, if_false, if_true, reduceIte]
        refine ⟨?_, ?_, ?_, ?_⟩ <;> trivial
  refine ⟨(importLoop pathExists ImportStrategy.rename [a, a2] d.names ⟨0, 0, 0, []⟩ d).1,
    (importLoop pathExists ImportStrategy.rename [a, a2] d.names ⟨0, 0, 0, []⟩ d).2,
    ?_, hloop.2.1, hloop.2.2.1, hloop.2.2.2, ?_, ?_, ?_, ⟨k0, hk0eq, hk0free, hk0min⟩⟩
  · rw [import_from_content, if_neg (by simp)]
  · rw [hloop.1, find?_insert_ne _ _ _ (Ne.symm hne3a), find?_insert_ne _ _ _ (Ne.symm hne2a)]
  · rw [hloop.1, find?_insert_ne _ _ _ (Ne.symm hne32)]
    exact insert_find?_self d { a with name := find_unique_name a.name d.names }
  · rw [hloop.1]
    exact insert_find?_self _ _

/-- Witness for C9: importing two records named `"test"` into a store
already holding `"test"` and `"test_2"` renames them to `"test_3"` and
`"test_4"`. -/
theorem C9_witness :
    ∃ res d2,
      import_from_content (fun _ => true)
          (Database.mk [⟨"test", "/t", [], 0, none, 0⟩, ⟨"test_2", "/t2", [], 0, none, 0⟩] false)
          [⟨"test", "/new", [], 0, none, 1⟩, ⟨"test", "/new2", [], 0, none, 2⟩]
          ImportStrategy.rename
        = Except.ok (res, d2) ∧
      res.imported = 0 ∧ res.skipped = 0 ∧ res.renamed = 2 ∧
      d2.find? "test"
        = (Database.mk [⟨"test", "/t", [], 0, none, 0⟩,
            ⟨"test_2", "/t2", [], 0, none, 0⟩] false).find? "test" ∧
      d2.find? "test_3" = some ⟨"test_3", "/new", [], 0, none, 1⟩ ∧
      d2.find? "test_4" = some ⟨"test_4", "/new2", [], 0, none, 2⟩ ∧
      (∃ k0, ("test_3" : String) = suffixName "test" (2 + k0) ∧
        (Database.mk [⟨"test", "/t", [], 0, none, 0⟩,
            ⟨"test_2", "/t2", [], 0, none, 0⟩] false).names.contains
          (suffixName "test" (2 + k0)) = false ∧
        ∀ i, i < k0 →
          (Database.mk [⟨"test", "/t", [], 0, none, 0⟩,
              ⟨"test_2", "/t2", [], 0, none, 0⟩] false).names.contains
            (suffixName "test" (2 + i)) = true) :=
  C9_import_rename_strategy
    (Database.mk [⟨"test", "/t", [], 0, none, 0⟩, ⟨"test_2", "/t2", [], 0, none, 0⟩] false)
    ⟨"test", "/new", [], 0, none, 1⟩ ⟨"test", "/new2", [], 0, none, 2⟩ (fun _ => true)
    rfl (by decide) (by decide) ⟨1, by decide, by decide⟩ ⟨2, by decide, by decide⟩

/-! ### C8: declined fuzzy navigation is cancelled, not NotFound -/

/-- C8.  When the query misses the store, the best of the (at most 5)
fuzzy matches scores at least 700, and the confirmation answer is
`false` — an explicit decline or the non-interactive default — the call
fails with the distinct cancelled outcome, not NotFound, and the store
(in particular the suggested record's use_count and last_used) is left
unchanged. -/
theorem C8_navigate_cancelled (d : Database) (query : String)
    (pathExists isDir : String → Bool) (now : Nat) (best : String × ℤ)
    (hmiss : d.find? query = none)
    (hbest : ((find_matches query d.names).take 5).head? = some best)
    (hscore : best.2 ≥ 700) :
    navigate d query pathExists isDir false now = (Except.error NavError.cancelled, d) ∧
      NavError.cancelled ≠ NavError.notFound query ∧
      (navigate d query pathExists isDir false now).2.find? best.1 = d.find? best.1 := by
  obtain ⟨rest, hms⟩ : ∃ rest, (find_matches query d.names).take 5 = best :: rest := by
    cases hml : (find_matches query d.names).take 5 with
    | nil =>
      rw [hml] at hbest
      simp at hbest
    | cons b t =>
      rw [hml] at hbest
      simp only [List.head?_cons, Option.some.injEq] at hbest
      exact ⟨t, by rw [hbest]⟩
  have hnav : navigate d query pathExists isDir false now
      = (Except.error NavError.cancelled, d) := by
    simp only [navigate, hmiss, hms, if_pos hscore, Bool.false_eq_true, if_false]
  exact ⟨hnav, by simp, by rw [hnav]⟩

/-- Witness for C8: a store holding only `"work"` (already used once),
queried with `"workk"` (similarity 0.8, score 800) in a non-interactive
context. -/
theorem C8_witness :
    navigate (Database.mk [⟨"work", "/w", [], 1, some 0, 0⟩] false) "workk"
        (fun _ => true) (fun _ => true) false 9
      = (Except.error NavError.cancelled,
         Database.mk [⟨"work", "/w", [], 1, some 0, 0⟩] false) ∧
      NavError.cancelled ≠ NavError.notFound "workk" ∧
      (navigate (Database.mk [⟨"work", "/w", [], 1, some 0, 0⟩] false) "workk"
          (fun _ => true) (fun _ => true) false 9).2.find? "work"
        = (Database.mk [⟨"work", "/w", [], 1, some 0, 0⟩] false).find? "work" :=
  C8_navigate_cancelled (Database.mk [⟨"work", "/w", [], 1, some 0, 0⟩] false) "workk"
    (fun _ => true) (fun _ => true) 9 ("work", 800) (by decide) (by decide) (by decide)

end Goto
